import Mathlib

/-!
Shallow embedding of the build-recommender core of the repository
(`new version/markov_trainer.py` and `new version/marko.py`):
the final-item filter, the training pass that folds per-participant build
sequences into the weighted transition tables, the greedy query
`recommend_build`, and the snapshot loader `load_brain`.

Python dicts are modelled as insertion-ordered association lists
(`List (String × α)`); `defaultdict` access that inserts a default entry
is modelled explicitly.  Edge weights (Python floats that only ever
accumulate 3.0 and 0.5) are modelled as rationals.
-/

set_option synthInstance.maxSize 5000
set_option maxRecDepth 8000

namespace Marko

abbrev Weight := Rat

/-- One item-catalog entry (DataDragon `item.json` shape used by the code):
`name`, `tags`, optional `into` upgrade list, and `gold.total`. -/
structure ItemEntry where
  name : String
  tags : List String
  into : Option (List String)
  goldTotal : Int
deriving Repr, DecidableEq

/-- The item catalog: an insertion-ordered map from item id to its entry
(`item_data` in the source). -/
abbrev Catalog := List (String × ItemEntry)

/-- Python truthiness of the `info.get('into')` value: `None` and `[]`
are falsy, a non-empty list is truthy. -/
def intoTruthy : Option (List String) → Bool
  | none => false
  | some l => !l.isEmpty

/-- `is_final_item(item_id, item_data_map)` from the source:
absent from the catalog → False; Boots tag with falsy `into` → True;
truthy `into` or `gold.total < 1600` → False; otherwise True. -/
def is_final_item (item_id : String) (item_data_map : Catalog) : Bool :=
  match item_data_map.lookup item_id with
  | none => false
  | some info =>
    if info.tags.contains "Boots" && !intoTruthy info.into then true
    else if intoTruthy info.into || info.goldTotal < 1600 then false
    else true

/-- One entry of a participant's `item_purchases` list as written by
`game_fetch7.py`: an event type string (ITEM_PURCHASED / ITEM_SOLD /
ITEM_DESTROYED), a timestamp, and the item id (the trainer reads it via
`str(purchase['itemId'])`, so we carry the string form). -/
structure PurchaseEvent where
  eventType : String
  timestampMs : Int
  itemId : String
deriving Repr, DecidableEq

/-- One participant of a parsed match record. -/
structure Participant where
  championName : String
  teamId : Int
  lane : String
  win : Bool
  item_purchases : List PurchaseEvent
deriving Repr, DecidableEq

/-- One parsed match record (the fields the trainer reads). -/
structure MatchRec where
  participants : List Participant
deriving Repr, DecidableEq

/-- The lane whitelist of the trainer. -/
def VALID_LANES : List String := ["TOP", "JUNGLE", "MIDDLE", "BOTTOM", "UTILITY"]

/-- The purchase-scanning loop of `train`: walk `item_purchases`, keep an id
iff `is_final_item` holds and it is not already in `processed_ids`, in order.
Note the loop never looks at the event's type, only at its `itemId`. -/
def scanPurchases (catalog : Catalog) : List PurchaseEvent → List String → List String
  | [], _ => []
  | e :: rest, processed =>
    if !is_final_item e.itemId catalog then scanPurchases catalog rest processed
    else if processed.contains e.itemId then scanPurchases catalog rest processed
    else e.itemId :: scanPurchases catalog rest (e.itemId :: processed)

/-- `build_sequence` of a participant: `"START"` followed by the filtered,
de-duplicated final-item ids in purchase order. -/
def build_sequence (catalog : Catalog) (p : Participant) : List String :=
  "START" :: scanPurchases catalog p.item_purchases []

/-- Python dict assignment `d[k] = v` on an insertion-ordered assoc list:
overwrite in place if the key is present, else append at the end. -/
def dictSet {α : Type} : List (String × α) → String → α → List (String × α)
  | [], k, v => [(k, v)]
  | (k', v') :: rest, k, v =>
    if k' = k then (k, v) :: rest else (k', v') :: dictSet rest k v

/-- `defaultdict.__getitem__` key-creation effect: insert `(k, d0)` at the
end when `k` is absent, leave the dict unchanged when it is present. -/
def ddTouch {α : Type} (d : List (String × α)) (k : String) (d0 : α) : List (String × α) :=
  if (d.lookup k).isSome then d else d ++ [(k, d0)]

/-- Innermost table level: to-node → accumulated weight. -/
abbrev EdgeMap := List (String × Weight)
/-- from-node → `EdgeMap`. -/
abbrev TransMap := List (String × EdgeMap)
/-- `general_memory`: champion → `TransMap`. -/
abbrev GeneralTbl := List (String × TransMap)
/-- opponent → `TransMap`. -/
abbrev OppMap := List (String × TransMap)
/-- `specific_memory`: champion → `OppMap`. -/
abbrev SpecificTbl := List (String × OppMap)

/-- `m[t] += w` on the innermost defaultdict(float) level. -/
def addW (m : EdgeMap) (t : String) (w : Weight) : EdgeMap :=
  dictSet m t (((m.lookup t).getD 0) + w)

/-- `m[f][t] += w` on a two-level defaultdict. -/
def updTrans (m : TransMap) (f t : String) (w : Weight) : TransMap :=
  dictSet m f (addW ((m.lookup f).getD []) t w)

/-- `general_memory[c][f][t] += w`. -/
def updGeneral (g : GeneralTbl) (c f t : String) (w : Weight) : GeneralTbl :=
  dictSet g c (updTrans ((g.lookup c).getD []) f t w)

/-- `specific_memory[c][o][f][t] += w`. -/
def updSpecific (s : SpecificTbl) (c o f t : String) (w : Weight) : SpecificTbl :=
  dictSet s c (dictSet ((s.lookup c).getD []) o
    (updTrans ((((s.lookup c).getD []).lookup o).getD []) f t w))

/-- The two in-memory tables of `ItemAdvisorAI`. -/
structure BrainState where
  specific : SpecificTbl
  general : GeneralTbl
deriving Repr, DecidableEq

/-- Weight lookup with the defaultdict's implicit zero. -/
def edgeW (m : EdgeMap) (t : String) : Weight := (m.lookup t).getD 0

def transW (m : TransMap) (f t : String) : Weight := edgeW ((m.lookup f).getD []) t

/-- Accumulated weight of edge `f → t` for champion `c` in the general table. -/
def genW (g : GeneralTbl) (c f t : String) : Weight :=
  transW ((g.lookup c).getD []) f t

/-- Accumulated weight of edge `f → t` for champion `c` vs opponent `o`. -/
def specW (s : SpecificTbl) (c o f t : String) : Weight :=
  transW ((((s.lookup c).getD []).lookup o).getD []) f t

/-- `weight = 3.0 if win else 0.5`. -/
def participantWeight (p : Participant) : Weight := if p.win then 3 else 1/2

/-- The inner learning loop: for every consecutive pair of the build
sequence, add the weight to both tables. -/
def trainPairs (champ enemy : String) (w : Weight) :
    BrainState → List (String × String) → BrainState
  | st, [] => st
  | st, (f, t) :: rest =>
    trainPairs champ enemy w
      ⟨updSpecific st.specific champ enemy f t w, updGeneral st.general champ f t w⟩ rest

/-- The opponent scan: first participant with a different team and the same
lane (`for opp in participants: ... break`). -/
def findOpponent (participants : List Participant) (myTeam : Int) (myLane : String) :
    Option Participant :=
  participants.find? (fun opp => opp.teamId != myTeam && opp.lane == myLane)

/-- `enemy_champ = opponent['championName'] if opponent else "Unknown"`. -/
def enemyName (participants : List Participant) (p : Participant) : String :=
  match findOpponent participants p.teamId p.lane with
  | some opp => opp.championName
  | none => "Unknown"

/-- The consecutive pairs `(build_sequence[i], build_sequence[i+1])`. -/
def seqPairs (seq : List String) : List (String × String) := seq.zip seq.tail

/-- The body of the per-participant loop of `train`: skip exotic lanes,
resolve the direct opponent (or `"Unknown"`), extract the build sequence and
fold its transition pairs into both tables. -/
def trainParticipant (catalog : Catalog) (participants : List Participant)
    (st : BrainState) (p : Participant) : BrainState :=
  if VALID_LANES.contains p.lane then
    trainPairs p.championName (enemyName participants p) (participantWeight p) st
      (seqPairs (build_sequence catalog p))
  else st

/-- One match of the training pass: every participant in order. -/
def trainMatch (catalog : Catalog) (st : BrainState) (m : MatchRec) : BrainState :=
  m.participants.foldl (trainParticipant catalog m.participants) st

/-- A full training pass over a corpus starting from a given state. -/
def trainCorpus (catalog : Catalog) (st : BrainState) (corpus : List MatchRec) : BrainState :=
  corpus.foldl (trainMatch catalog) st

/-- `ItemAdvisorAI.__init__` then `train()`: one training pass from the
fresh empty tables. -/
def trainAll (catalog : Catalog) (corpus : List MatchRec) : BrainState :=
  trainCorpus catalog ⟨[], []⟩ corpus

/-- `get_item_name`: the display name from the catalog, or the placeholder
`"ID {item_id}"` when the id is unknown.  (Catalog entries in this model
always carry a `name`, matching the DataDragon data the code consumes.) -/
def get_item_name (item_data : Catalog) (item_id : String) : String :=
  match item_data.lookup item_id with
  | some info => info.name
  | none => "ID " ++ item_id

/-- `max(next_options, key=next_options.get)`: the first key attaining the
maximum value, in insertion order. -/
def argmaxKey : EdgeMap → Option (String × Weight)
  | [] => none
  | kv :: rest =>
    match argmaxKey rest with
    | none => some kv
    | some kv' => if kv'.2 > kv.2 then some kv' else some kv

/-- One insertion step of a stable descending sort by weight. -/
def insertDesc (x : String × Weight) : EdgeMap → EdgeMap
  | [] => [x]
  | y :: ys => if y.2 ≤ x.2 then x :: y :: ys else y :: insertDesc x ys

/-- `sorted(next_options.items(), key=lambda x: x[1], reverse=True)`:
stable sort by weight, descending (ties keep insertion order). -/
def sortDesc (l : EdgeMap) : EdgeMap := l.foldr insertDesc []

/-- The selection step of the greedy loop of `recommend_build`: the argmax
of `next_options`, and when that item was already visited, the first
unvisited item of the descending-sorted options (`found_new` scan);
`none` when every option is visited (`break`). -/
def pickNext (next_options : EdgeMap) (visited : List String) : Option String :=
  match argmaxKey next_options with
  | none => none
  | some best =>
    if visited.contains best.1 then
      match (sortDesc next_options).find? (fun kv => !visited.contains kv.1) with
      | some kv => some kv.1
      | none => none
    else some best.1

/-- The greedy walk `for i in range(1, 7)`: with `fuel` steps left, from
`current`, given the `visited` set so far, return the rest of `build_path`.
A missing key or an empty options dict (`if not next_options`) stops. -/
def greedyLoop (transitions : TransMap) : Nat → String → List String → List String
  | 0, _, _ => []
  | Nat.succ fuel, current, visited =>
    match transitions.lookup current with
    | none => []
    | some next_options =>
      if next_options.isEmpty then []
      else
        match pickNext next_options visited with
        | none => []
        | some best => best :: greedyLoop transitions fuel best (best :: visited)

/-- `if not transitions: ... return` (a bare `return`, i.e. `None`)
followed by the greedy walk from `"START"` with an empty visited set. -/
def greedyRun (transitions : TransMap) : Option (List String) :=
  if transitions.isEmpty then none else some (greedyLoop transitions 6 "START" [])

/-- `transitions = self.general_memory.get(my_champ)` and the subsequent
falsiness check: `None` for an absent champion or an empty table. -/
def runGeneral (g : GeneralTbl) (my_champ : String) : Option (List String) :=
  match g.lookup my_champ with
  | none => none
  | some t => greedyRun t

/-- `ItemAdvisorAI.recommend_build(my_champ, enemy_champ)` of
`markov_trainer.py`, modelled together with its state effect: the
`defaultdict` accesses `self.specific_memory[my_champ]` and
`specific_data["START"]` insert empty default entries into the specific
table, which the model threads explicitly.  The first component is
`some build_path` (a list of raw item ids), or `none` for the bare
`return` of the no-data branch. -/
def recommend_build (st : BrainState) (my_champ : String) (enemy_champ : Option String) :
    Option (List String) × BrainState :=
  let champDict : OppMap := (st.specific.lookup my_champ).getD []
  let specific0 : SpecificTbl := ddTouch st.specific my_champ []
  match enemy_champ.bind (fun e => (champDict.lookup e).map (fun d => (e, d))) with
  | some (e, d) =>
    if d.isEmpty then
      (runGeneral st.general my_champ, { st with specific := specific0 })
    else
      let d' := ddTouch d "START" []
      let st' : BrainState :=
        { st with specific := dictSet specific0 my_champ (dictSet champDict e d') }
      if ((d.lookup "START").getD []).isEmpty then
        (runGeneral st.general my_champ, st')
      else
        (greedyRun d', st')
  | none =>
    (runGeneral st.general my_champ, { st with specific := specific0 })

/-- A parsed JSON value, the result of `json.load` in `marko.py`. -/
inductive JValue where
  | obj : List (String × JValue) → JValue
  | arr : List JValue → JValue
  | str : String → JValue
  | num : Rat → JValue
  | jbool : Bool → JValue
  | null : JValue
deriving Repr

/-- `data["key"]` on a parsed JSON value: succeeds only on an object
holding the key; anything else raises (`KeyError`/`TypeError`), which the
`except` clause of `load_brain` converts into a `False` return. -/
def jGet : JValue → String → Option JValue
  | .obj kvs, k => kvs.lookup k
  | _, _ => none

/-- The two attributes of `marko.py`'s `ItemAdvisorAI` as plain Python
objects: after `load_brain` they hold whatever the snapshot parsed to. -/
structure MarkoBrain where
  specific_memory : JValue
  general_memory : JValue
deriving Repr

/-- `ItemAdvisorAI.load_brain` of `marko.py`.  The snapshot file is
`none` when absent (`os.path.exists` fails), `some none` when present but
unreadable or not JSON (`json.load` raises), and `some (some j)` when it
parses to `j`.  The two assignments run in source order inside the `try`,
so a snapshot holding `"specific"` but not `"general"` overwrites
`specific_memory` before the `KeyError` is caught. -/
def load_brain (file : Option (Option JValue)) (st : MarkoBrain) : Bool × MarkoBrain :=
  match file with
  | none => (false, st)
  | some none => (false, st)
  | some (some data) =>
    match jGet data "specific" with
    | none => (false, st)
    | some sp =>
      match jGet data "general" with
      | none => (false, { st with specific_memory := sp })
      | some g => (true, { specific_memory := sp, general_memory := g })

/-! ### Association-list (Python dict) lemmas -/

theorem lookup_cons_ite {α : Type} (k0 : String) (v0 : α) (tl : List (String × α))
    (k' : String) :
    ((k0, v0) :: tl).lookup k' = if k' = k0 then some v0 else tl.lookup k' := by
  by_cases h : k' = k0
  · simp [List.lookup_cons, h]
  · simp [List.lookup_cons, beq_false_of_ne h, h]

theorem lookup_dictSet {α : Type} (d : List (String × α)) (k k' : String) (v : α) :
    (dictSet d k v).lookup k' = if k' = k then some v else d.lookup k' := by
  induction d with
  | nil => by_cases h : k' = k <;> simp [dictSet, lookup_cons_ite, h]
  | cons hd tl ih =>
    obtain ⟨k0, v0⟩ := hd
    by_cases h0 : k0 = k
    · subst h0
      by_cases h : k' = k0 <;> simp [dictSet, lookup_cons_ite, h]
    · by_cases h : k' = k0
      · subst h
        have hk : ¬ k' = k := h0
        simp [dictSet, h0, lookup_cons_ite, hk]
      · simp [dictSet, h0, lookup_cons_ite, h, ih]

theorem lookup_append_single {α : Type} (d : List (String × α)) (k k' : String) (v : α) :
    (d ++ [(k, v)]).lookup k' =
      match d.lookup k' with
      | some w => some w
      | none => if k' = k then some v else none := by
  induction d with
  | nil => by_cases h : k' = k <;> simp [lookup_cons_ite, h]
  | cons hd tl ih =>
    obtain ⟨k0, v0⟩ := hd
    by_cases h : k' = k0 <;> simp [lookup_cons_ite, h, ih]

theorem lookup_ddTouch {α : Type} (d : List (String × α)) (k k' : String) (d0 : α) :
    ((ddTouch d k d0).lookup k').getD d0 = (d.lookup k').getD d0 := by
  unfold ddTouch
  by_cases hk : (d.lookup k).isSome
  · simp [hk]
  · simp only [hk, Bool.false_eq_true, if_false, lookup_append_single]
    match h : d.lookup k' with
    | some w => simp
    | none =>
      by_cases h' : k' = k <;> simp [h']

theorem ddTouch_of_mem {α : Type} (d : List (String × α)) (k : String) (d0 : α)
    (h : (d.lookup k).isSome) : ddTouch d k d0 = d := by
  unfold ddTouch
  simp [h]

/-! ### Effect of one `+= weight` update on the stored weights -/

theorem edgeW_addW (m : EdgeMap) (t t' : String) (w : Weight) :
    edgeW (addW m t w) t' = edgeW m t' + if t' = t then w else 0 := by
  unfold edgeW addW
  rw [lookup_dictSet]
  by_cases h : t' = t
  · subst h; simp
  · simp [h]

theorem transW_updTrans (m : TransMap) (f t f' t' : String) (w : Weight) :
    transW (updTrans m f t w) f' t' =
      transW m f' t' + if f' = f ∧ t' = t then w else 0 := by
  unfold transW updTrans
  by_cases h : f' = f
  · subst h; simp [lookup_dictSet, edgeW_addW]
  · simp [lookup_dictSet, h]

theorem genW_updGeneral (g : GeneralTbl) (c f t c' f' t' : String) (w : Weight) :
    genW (updGeneral g c f t w) c' f' t' =
      genW g c' f' t' + if c' = c ∧ f' = f ∧ t' = t then w else 0 := by
  unfold genW updGeneral
  by_cases h : c' = c
  · subst h; simp [lookup_dictSet, transW_updTrans]
  · simp [lookup_dictSet, h]

theorem specW_updSpecific (s : SpecificTbl) (c o f t c' o' f' t' : String) (w : Weight) :
    specW (updSpecific s c o f t w) c' o' f' t' =
      specW s c' o' f' t' + if c' = c ∧ o' = o ∧ f' = f ∧ t' = t then w else 0 := by
  unfold specW updSpecific
  by_cases hc : c' = c
  · subst hc
    by_cases ho : o' = o
    · subst ho; simp [lookup_dictSet, transW_updTrans]
    · simp [lookup_dictSet, ho]
  · simp [lookup_dictSet, hc]

/-! ### Effect of the inner learning loop on the stored weights -/

/-- Number of occurrences of the pair `(f, t)` in a list of transition
pairs. -/
def pairCount (f t : String) : List (String × String) → Nat
  | [] => 0
  | (f0, t0) :: rest => (if f = f0 ∧ t = t0 then 1 else 0) + pairCount f t rest

theorem genW_trainPairs (champ enemy : String) (w : Weight) (st : BrainState)
    (ps : List (String × String)) (c' f' t' : String) :
    genW (trainPairs champ enemy w st ps).general c' f' t' =
      genW st.general c' f' t' +
        (if c' = champ then w * (pairCount f' t' ps : Weight) else 0) := by
  induction ps generalizing st with
  | nil => simp [trainPairs, pairCount]
  | cons p rest ih =>
    obtain ⟨f, t⟩ := p
    rw [trainPairs, ih]
    simp only [genW_updGeneral, pairCount]
    by_cases hc : c' = champ
    · subst hc
      by_cases hf : f' = f
      · subst hf
        by_cases ht : t' = t
        · subst ht
          simp only [and_self, if_pos rfl, eq_self_iff_true, true_and, if_true]
          push_cast
          ring
        · simp [ht]
      · simp [hf]
    · simp [hc]

theorem specW_trainPairs (champ enemy : String) (w : Weight) (st : BrainState)
    (ps : List (String × String)) (c' o' f' t' : String) :
    specW (trainPairs champ enemy w st ps).specific c' o' f' t' =
      specW st.specific c' o' f' t' +
        (if c' = champ ∧ o' = enemy then w * (pairCount f' t' ps : Weight) else 0) := by
  induction ps generalizing st with
  | nil => simp [trainPairs, pairCount]
  | cons p rest ih =>
    obtain ⟨f, t⟩ := p
    rw [trainPairs, ih]
    simp only [specW_updSpecific, pairCount]
    by_cases hc : c' = champ
    · subst hc
      by_cases ho : o' = enemy
      · subst ho
        by_cases hf : f' = f
        · subst hf
          by_cases ht : t' = t
          · subst ht
            simp only [and_self, if_pos rfl, eq_self_iff_true, true_and, if_true]
            push_cast
            ring
          · simp [ht]
        · simp [hf]
      · simp [ho]
    · simp [hc]

/-! ### Per-participant and per-corpus accumulation -/

/-- What one participant adds to the general-table edge `c : f → t`. -/
def gContrib (catalog : Catalog) (c f t : String) (p : Participant) : Weight :=
  if VALID_LANES.contains p.lane = true ∧ c = p.championName then
    participantWeight p * (pairCount f t (seqPairs (build_sequence catalog p)) : Weight)
  else 0

/-- What one participant adds to the specific-table edge `c vs o : f → t`. -/
def sContrib (catalog : Catalog) (parts : List Participant) (c o f t : String)
    (p : Participant) : Weight :=
  if VALID_LANES.contains p.lane = true ∧ c = p.championName ∧ o = enemyName parts p then
    participantWeight p * (pairCount f t (seqPairs (build_sequence catalog p)) : Weight)
  else 0

theorem genW_trainParticipant (catalog : Catalog) (parts : List Participant)
    (st : BrainState) (p : Participant) (c' f' t' : String) :
    genW (trainParticipant catalog parts st p).general c' f' t' =
      genW st.general c' f' t' + gContrib catalog c' f' t' p := by
  unfold trainParticipant gContrib
  by_cases hl : VALID_LANES.contains p.lane = true
  · have hl2 : p.lane ∈ VALID_LANES := by simpa using hl
    rw [if_pos hl, genW_trainPairs]
    by_cases hc : c' = p.championName
    · simp [hl2, hc]
    · simp [hl2, hc]
  · have hl2 : ¬ p.lane ∈ VALID_LANES := by simpa using hl
    simp [hl2]

theorem specW_trainParticipant (catalog : Catalog) (parts : List Participant)
    (st : BrainState) (p : Participant) (c' o' f' t' : String) :
    specW (trainParticipant catalog parts st p).specific c' o' f' t' =
      specW st.specific c' o' f' t' + sContrib catalog parts c' o' f' t' p := by
  unfold trainParticipant sContrib
  by_cases hl : VALID_LANES.contains p.lane = true
  · have hl2 : p.lane ∈ VALID_LANES := by simpa using hl
    rw [if_pos hl, specW_trainPairs]
    by_cases hc : c' = p.championName
    · by_cases ho : o' = enemyName parts p
      · simp [hl2, hc, ho]
      · simp [hl2, hc, ho]
    · simp [hl2, hc]
  · have hl2 : ¬ p.lane ∈ VALID_LANES := by simpa using hl
    simp [hl2]

theorem genW_foldParticipants (catalog : Catalog) (parts : List Participant)
    (l : List Participant) (st : BrainState) (c' f' t' : String) :
    genW (l.foldl (trainParticipant catalog parts) st).general c' f' t' =
      genW st.general c' f' t' + (l.map (gContrib catalog c' f' t')).sum := by
  induction l generalizing st with
  | nil => simp
  | cons p rest ih =>
    simp only [List.foldl_cons, List.map_cons, List.sum_cons]
    rw [ih, genW_trainParticipant]
    ring

theorem specW_foldParticipants (catalog : Catalog) (parts : List Participant)
    (l : List Participant) (st : BrainState) (c' o' f' t' : String) :
    specW (l.foldl (trainParticipant catalog parts) st).specific c' o' f' t' =
      specW st.specific c' o' f' t' + (l.map (sContrib catalog parts c' o' f' t')).sum := by
  induction l generalizing st with
  | nil => simp
  | cons p rest ih =>
    simp only [List.foldl_cons, List.map_cons, List.sum_cons]
    rw [ih, specW_trainParticipant]
    ring

theorem genW_trainCorpus (catalog : Catalog) (corpus : List MatchRec)
    (st : BrainState) (c' f' t' : String) :
    genW (trainCorpus catalog st corpus).general c' f' t' =
      genW st.general c' f' t' +
        (corpus.map (fun m => (m.participants.map (gContrib catalog c' f' t')).sum)).sum := by
  induction corpus generalizing st with
  | nil => simp [trainCorpus]
  | cons m rest ih =>
    simp only [trainCorpus, List.foldl_cons, List.map_cons, List.sum_cons] at ih ⊢
    rw [ih, trainMatch, genW_foldParticipants]
    ring

theorem specW_trainCorpus (catalog : Catalog) (corpus : List MatchRec)
    (st : BrainState) (c' o' f' t' : String) :
    specW (trainCorpus catalog st corpus).specific c' o' f' t' =
      specW st.specific c' o' f' t' +
        (corpus.map
          (fun m => (m.participants.map (sContrib catalog m.participants c' o' f' t')).sum)).sum := by
  induction corpus generalizing st with
  | nil => simp [trainCorpus]
  | cons m rest ih =>
    simp only [trainCorpus, List.foldl_cons, List.map_cons, List.sum_cons] at ih ⊢
    rw [ih, trainMatch, specW_foldParticipants]
    ring

/-! ### The build sequence never repeats an item -/

theorem scanPurchases_not_mem (catalog : Catalog) :
    ∀ (evs : List PurchaseEvent) (processed : List String) (x : String),
      x ∈ scanPurchases catalog evs processed → ¬ x ∈ processed := by
  intro evs
  induction evs with
  | nil => intro processed x hx; simp [scanPurchases] at hx
  | cons e rest ih =>
    intro processed x hx
    by_cases hf : is_final_item e.itemId catalog
    · by_cases hp : processed.contains e.itemId
      · simp only [scanPurchases, hf, hp, Bool.not_true, Bool.false_eq_true, if_false,
          if_true] at hx
        exact ih processed x hx
      · simp only [scanPurchases, hf, hp, Bool.not_true, Bool.false_eq_true, if_false,
          List.mem_cons] at hx
        rcases hx with h1 | h2
        · subst h1
          intro hmem
          exact hp (by simpa [List.contains_iff_exists_mem_beq] using hmem)
        · intro hmem
          exact ih (e.itemId :: processed) x h2 (List.mem_cons_of_mem _ hmem)
    · simp only [scanPurchases, hf, Bool.not_false, if_true] at hx
      exact ih processed x hx

theorem scanPurchases_nodup (catalog : Catalog) :
    ∀ (evs : List PurchaseEvent) (processed : List String),
      (scanPurchases catalog evs processed).Nodup := by
  intro evs
  induction evs with
  | nil => intro processed; simp [scanPurchases]
  | cons e rest ih =>
    intro processed
    by_cases hf : is_final_item e.itemId catalog
    · by_cases hp : processed.contains e.itemId
      · simpa only [scanPurchases, hf, hp, Bool.not_true, Bool.false_eq_true, if_false,
          if_true] using ih processed
      · simp only [scanPurchases, hf, hp, Bool.not_true, Bool.false_eq_true, if_false]
        refine List.nodup_cons.mpr ⟨?_, ih (e.itemId :: processed)⟩
        intro hmem
        exact scanPurchases_not_mem catalog rest (e.itemId :: processed) _ hmem
          (List.mem_cons_self _ _)
    · simpa only [scanPurchases, hf, Bool.not_false, if_true] using ih processed

theorem pairCount_zip_le (f t : String) :
    ∀ (l : List String) (a : String), pairCount f t ((a :: l).zip l) ≤ l.count t := by
  intro l
  induction l with
  | nil => intro a; simp [pairCount]
  | cons b rest ih =>
    intro a
    rw [List.zip_cons_cons]
    simp only [pairCount]
    have h1 := ih b
    have h2 : (if f = a ∧ t = b then 1 else 0) ≤ (if (b == t) = true then 1 else 0) := by
      by_cases hc : f = a ∧ t = b
      · simp [hc, hc.2]
      · simp [hc]
    have h3 : (b :: rest).count t = rest.count t + if (b == t) = true then 1 else 0 :=
      List.count_cons t b rest
    omega

theorem pairCount_build_le_one (catalog : Catalog) (p : Participant) (f t : String) :
    pairCount f t (seqPairs (build_sequence catalog p)) ≤ 1 := by
  unfold seqPairs build_sequence
  simp only [List.tail_cons]
  have h1 := pairCount_zip_le f t (scanPurchases catalog p.item_purchases []) "START"
  have h2 : (scanPurchases catalog p.item_purchases []).count t ≤ 1 :=
    List.nodup_iff_count_le_one.mp (scanPurchases_nodup catalog p.item_purchases []) t
  omega

/-! ### Counting qualifying build sequences -/

/-- A participant whose build sequence makes the transition `f → t` count
for champion `c` with outcome `flag`: valid lane, right champion, right
outcome, and the pair occurs in the sequence. -/
def participQ (catalog : Catalog) (c f t : String) (flag : Bool) (p : Participant) : Bool :=
  VALID_LANES.contains p.lane && (p.championName == c) && (p.win == flag) &&
    (pairCount f t (seqPairs (build_sequence catalog p)) != 0)

/-- Additionally requires the participant's resolved direct opponent
(`"Unknown"` when none) to be `o`. -/
def participQvs (catalog : Catalog) (parts : List Participant) (c o f t : String)
    (flag : Bool) (p : Participant) : Bool :=
  participQ catalog c f t flag p && (enemyName parts p == o)

/-- Number of build sequences in the corpus with outcome `flag` in which
`t` immediately follows `f`, for champion `c`. -/
def transitionCount (catalog : Catalog) (corpus : List MatchRec) (c f t : String)
    (flag : Bool) : Nat :=
  (corpus.map (fun m => (m.participants.filter (participQ catalog c f t flag)).length)).sum

/-- Same, restricted to sequences whose resolved opponent is `o`. -/
def transitionCountVs (catalog : Catalog) (corpus : List MatchRec) (c o f t : String)
    (flag : Bool) : Nat :=
  (corpus.map
    (fun m => (m.participants.filter (participQvs catalog m.participants c o f t flag)).length)).sum

theorem gContrib_eq (catalog : Catalog) (c f t : String) (p : Participant) :
    gContrib catalog c f t p =
      3 * (if participQ catalog c f t true p then 1 else 0 : Weight) +
        (1/2) * (if participQ catalog c f t false p then 1 else 0 : Weight) := by
  unfold gContrib participQ participantWeight
  have hb := pairCount_build_le_one catalog p f t
  by_cases hl : VALID_LANES.contains p.lane = true
  · by_cases hc : c = p.championName
    · have hc2 : (p.championName == c) = true := by simp [hc]
      by_cases hw : p.win
      · have h01 : pairCount f t (seqPairs (build_sequence catalog p)) = 0 ∨
            pairCount f t (seqPairs (build_sequence catalog p)) = 1 := by omega
        rcases h01 with h0 | h1
        · simp [hl, hc, hc2, hw, h0]
        · simp [hl, hc, hc2, hw, h1]
      · have h01 : pairCount f t (seqPairs (build_sequence catalog p)) = 0 ∨
            pairCount f t (seqPairs (build_sequence catalog p)) = 1 := by omega
        rcases h01 with h0 | h1
        · simp [hl, hc, hc2, hw, h0]
        · simp [hl, hc, hc2, hw, h1]
    · have hc2 : (p.championName == c) = false := by
        simp only [beq_eq_false_iff_ne, ne_eq]
        intro hh; exact hc hh.symm
      simp [hl, hc, hc2]
  · have hl2 : ¬ p.lane ∈ VALID_LANES := by simpa using hl
    simp [hl2]

theorem sContrib_eq (catalog : Catalog) (parts : List Participant) (c o f t : String)
    (p : Participant) :
    sContrib catalog parts c o f t p =
      3 * (if participQvs catalog parts c o f t true p then 1 else 0 : Weight) +
        (1/2) * (if participQvs catalog parts c o f t false p then 1 else 0 : Weight) := by
  unfold sContrib participQvs participQ participantWeight
  have hb := pairCount_build_le_one catalog p f t
  by_cases hl : VALID_LANES.contains p.lane = true
  · by_cases hc : c = p.championName
    · have hc2 : (p.championName == c) = true := by simp [hc]
      by_cases ho : o = enemyName parts p
      · have ho2 : (enemyName parts p == o) = true := by simp [ho]
        by_cases hw : p.win
        · have h01 : pairCount f t (seqPairs (build_sequence catalog p)) = 0 ∨
              pairCount f t (seqPairs (build_sequence catalog p)) = 1 := by omega
          rcases h01 with h0 | h1
          · simp [hl, hc, hc2, ho, ho2, hw, h0]
          · simp [hl, hc, hc2, ho, ho2, hw, h1]
        · have h01 : pairCount f t (seqPairs (build_sequence catalog p)) = 0 ∨
              pairCount f t (seqPairs (build_sequence catalog p)) = 1 := by omega
          rcases h01 with h0 | h1
          · simp [hl, hc, hc2, ho, ho2, hw, h0]
          · simp [hl, hc, hc2, ho, ho2, hw, h1]
      · have ho2 : (enemyName parts p == o) = false := by
          simp only [beq_eq_false_iff_ne, ne_eq]
          intro hh; exact ho hh.symm
        simp [hl, hc, ho, ho2]
    · have hc2 : (p.championName == c) = false := by
        simp only [beq_eq_false_iff_ne, ne_eq]
        intro hh; exact hc hh.symm
      simp [hl, hc, hc2]
  · have hl2 : ¬ p.lane ∈ VALID_LANES := by simpa using hl
    simp [hl2]

theorem sum_map_gContrib (catalog : Catalog) (c f t : String) (l : List Participant) :
    (l.map (gContrib catalog c f t)).sum =
      3 * ((l.filter (participQ catalog c f t true)).length : Weight) +
        (1/2) * ((l.filter (participQ catalog c f t false)).length : Weight) := by
  induction l with
  | nil => simp
  | cons p rest ih =>
    simp only [List.map_cons, List.sum_cons, ih, gContrib_eq, List.filter_cons]
    by_cases h1 : participQ catalog c f t true p <;>
      by_cases h2 : participQ catalog c f t false p <;>
        · simp only [h1, h2, if_true, if_false, Bool.false_eq_true, List.length_cons]
          push_cast
          ring

theorem sum_map_sContrib (catalog : Catalog) (parts : List Participant) (c o f t : String)
    (l : List Participant) :
    (l.map (sContrib catalog parts c o f t)).sum =
      3 * ((l.filter (participQvs catalog parts c o f t true)).length : Weight) +
        (1/2) * ((l.filter (participQvs catalog parts c o f t false)).length : Weight) := by
  induction l with
  | nil => simp
  | cons p rest ih =>
    simp only [List.map_cons, List.sum_cons, ih, sContrib_eq, List.filter_cons]
    by_cases h1 : participQvs catalog parts c o f t true p <;>
      by_cases h2 : participQvs catalog parts c o f t false p <;>
        · simp only [h1, h2, if_true, if_false, Bool.false_eq_true, List.length_cons]
          push_cast
          ring

theorem sum_map_linear {β : Type} (l : List β) (f g : β → Weight) (a b : Weight) :
    (l.map (fun m => a * f m + b * g m)).sum = a * (l.map f).sum + b * (l.map g).sum := by
  induction l with
  | nil => simp
  | cons m rest ih =>
    simp only [List.map_cons, List.sum_cons, ih]
    ring

theorem cast_sum_lengths {β : Type} (l : List β) (q : β → Nat) :
    (((l.map q).sum : Nat) : Weight) = (l.map (fun m => ((q m : Nat) : Weight))).sum := by
  induction l with
  | nil => simp
  | cons m rest ih =>
    simp only [List.map_cons, List.sum_cons, Nat.cast_add]
    rw [ih]

theorem trainAll_genW (catalog : Catalog) (corpus : List MatchRec)
    (champ f t : String) :
    genW (trainAll catalog corpus).general champ f t =
      3 * (transitionCount catalog corpus champ f t true : Weight) +
        (1/2) * (transitionCount catalog corpus champ f t false : Weight) := by
  rw [trainAll, genW_trainCorpus]
  have h0 : genW (BrainState.mk [] []).general champ f t = 0 := rfl
  rw [h0, zero_add]
  simp only [sum_map_gContrib]
  rw [sum_map_linear]
  simp only [transitionCount]
  rw [cast_sum_lengths, cast_sum_lengths]

theorem trainAll_specW (catalog : Catalog) (corpus : List MatchRec)
    (champ opp f t : String) :
    specW (trainAll catalog corpus).specific champ opp f t =
      3 * (transitionCountVs catalog corpus champ opp f t true : Weight) +
        (1/2) * (transitionCountVs catalog corpus champ opp f t false : Weight) := by
  rw [trainAll, specW_trainCorpus]
  have h0 : specW (BrainState.mk [] []).specific champ opp f t = 0 := rfl
  rw [h0, zero_add]
  simp only [sum_map_sContrib]
  rw [sum_map_linear]
  simp only [transitionCountVs]
  rw [cast_sum_lengths, cast_sum_lengths]

/-- C1: after one training pass over a corpus, for every champion and pair
of nodes, the general-table edge weight equals exactly 3 times the number
of winning qualifying build sequences in which the to-node immediately
follows the from-node plus 1/2 (= 0.5) times the number of losing ones;
and likewise, per opponent key, for the specific table.  The build
sequences are START-prefixed, so transitions from START to the first final
item are covered like any other pair. -/
theorem C1_edge_weight_accumulation (catalog : Catalog) (corpus : List MatchRec)
    (champ f t : String) :
    (genW (trainAll catalog corpus).general champ f t =
      3 * (transitionCount catalog corpus champ f t true : Weight) +
        (1/2) * (transitionCount catalog corpus champ f t false : Weight)) ∧
    ∀ opp : String,
      specW (trainAll catalog corpus).specific champ opp f t =
        3 * (transitionCountVs catalog corpus champ opp f t true : Weight) +
          (1/2) * (transitionCountVs catalog corpus champ opp f t false : Weight) :=
  ⟨trainAll_genW catalog corpus champ f t,
    fun opp => trainAll_specW catalog corpus champ opp f t⟩

/-- C2: the final-item filter returns true exactly for catalog entries with
a falsy upgrade list that are Boots-tagged or cost at least 1600 gold; the
conjuncts check the spec's synthetic cases: an entry with into=[X] is
rejected, a cheap Boots entry with no into is accepted, a 1599-gold plain
entry is rejected, a 1600-gold one is accepted, and an id absent from the
catalog is rejected. -/
theorem C2_is_final_item_characterization :
    (∀ (item_id : String) (catalog : Catalog),
      is_final_item item_id catalog = true ↔
        ∃ info, catalog.lookup item_id = some info ∧ intoTruthy info.into = false ∧
          (info.tags.contains "Boots" = true ∨ 1600 ≤ info.goldTotal)) ∧
    is_final_item "A" [("A", ⟨"NameA", [], some ["X"], 3000⟩)] = false ∧
    is_final_item "B" [("B", ⟨"NameB", ["Boots"], none, 300⟩)] = true ∧
    is_final_item "C" [("C", ⟨"NameC", [], none, 1599⟩)] = false ∧
    is_final_item "D" [("D", ⟨"NameD", [], none, 1600⟩)] = true ∧
    is_final_item "E" [("D", ⟨"NameD", [], none, 1600⟩)] = false := by
  refine ⟨?_, by decide, by decide, by decide, by decide, by decide⟩
  intro item_id catalog
  cases h : catalog.lookup item_id with
  | none => simp [is_final_item, h]
  | some info =>
    simp only [is_final_item, h]
    by_cases hin : intoTruthy info.into
    · simp [hin, h]
    · by_cases hboots : info.tags.contains "Boots"
      · simp [hin, hboots, h]
      · by_cases hgold : info.goldTotal < 1600
        · simp [hin, hboots, hgold, h]
        · simp [hin, hboots, hgold, h]
          omega

/-! ### The greedy walk: termination bound and no duplicates -/

theorem pickNext_not_visited (opts : EdgeMap) (visited : List String) (x : String)
    (h : pickNext opts visited = some x) : ¬ x ∈ visited := by
  unfold pickNext at h
  cases ha : argmaxKey opts with
  | none => rw [ha] at h; exact absurd h (by simp)
  | some best =>
    rw [ha] at h
    dsimp only at h
    by_cases hv : visited.contains best.1 = true
    · rw [if_pos hv] at h
      cases hf : (sortDesc opts).find? (fun kv => !visited.contains kv.1) with
      | none => rw [hf] at h; exact absurd h (by simp)
      | some kv =>
        rw [hf] at h
        have hp := List.find?_some hf
        simp only [Option.some.injEq] at h
        subst h
        simp only [Bool.not_eq_eq_eq_not, Bool.not_true] at hp
        intro hmem
        rw [(by simpa [List.contains_iff_exists_mem_beq] using hmem : visited.contains kv.1 = true)] at hp
        exact Bool.noConfusion hp
    · rw [if_neg hv] at h
      simp only [Option.some.injEq] at h
      subst h
      intro hmem
      exact hv (by simpa [List.contains_iff_exists_mem_beq] using hmem)

theorem greedyLoop_length_le (transitions : TransMap) :
    ∀ (fuel : Nat) (cur : String) (visited : List String),
      (greedyLoop transitions fuel cur visited).length ≤ fuel := by
  intro fuel
  induction fuel with
  | zero => intro cur visited; simp [greedyLoop]
  | succ n ih =>
    intro cur visited
    rw [greedyLoop]
    cases transitions.lookup cur with
    | none => simp
    | some opts =>
      by_cases he : opts.isEmpty
      · simp [he]
      · simp only [he, Bool.false_eq_true, if_false]
        cases pickNext opts visited with
        | none => simp
        | some best =>
          simpa using Nat.succ_le_succ (ih best (best :: visited))

theorem greedyLoop_nodup_avoid (transitions : TransMap) :
    ∀ (fuel : Nat) (cur : String) (visited : List String),
      (greedyLoop transitions fuel cur visited).Nodup ∧
        ∀ x ∈ greedyLoop transitions fuel cur visited, ¬ x ∈ visited := by
  intro fuel
  induction fuel with
  | zero => intro cur visited; simp [greedyLoop]
  | succ n ih =>
    intro cur visited
    rw [greedyLoop]
    cases transitions.lookup cur with
    | none => simp
    | some opts =>
      by_cases he : opts.isEmpty
      · simp [he]
      · simp only [he, Bool.false_eq_true, if_false]
        cases hp : pickNext opts visited with
        | none => simp
        | some best =>
          have hbest := pickNext_not_visited opts visited best hp
          obtain ⟨ihn, iha⟩ := ih best (best :: visited)
          constructor
          · refine List.nodup_cons.mpr ⟨?_, ihn⟩
            intro hmem
            exact iha best hmem (List.mem_cons_self _ _)
          · intro x hx
            rcases List.mem_cons.mp hx with h1 | h2
            · subst h1; exact hbest
            · intro hmem
              exact iha x h2 (List.mem_cons_of_mem _ hmem)

theorem greedyRun_cases (t : TransMap) :
    greedyRun t = none ∨ greedyRun t = some (greedyLoop t 6 "START" []) := by
  unfold greedyRun
  by_cases h : t.isEmpty <;> simp [h]

theorem runGeneral_cases (g : GeneralTbl) (c : String) :
    runGeneral g c = none ∨
      ∃ t : TransMap, runGeneral g c = some (greedyLoop t 6 "START" []) := by
  unfold runGeneral
  cases h : g.lookup c with
  | none => exact Or.inl rfl
  | some t =>
    rcases greedyRun_cases t with h1 | h2
    · exact Or.inl h1
    · exact Or.inr ⟨t, h2⟩

theorem recommend_build_fst_cases (st : BrainState) (c : String) (eo : Option String) :
    (recommend_build st c eo).1 = none ∨
      ∃ tr : TransMap, (recommend_build st c eo).1 = some (greedyLoop tr 6 "START" []) := by
  unfold recommend_build
  cases hx : eo.bind
      (fun e => (((st.specific.lookup c).getD []).lookup e).map (fun d => (e, d))) with
  | none =>
    simp only [hx]
    exact runGeneral_cases st.general c
  | some ed =>
    obtain ⟨e, d⟩ := ed
    simp only [hx]
    by_cases hde : d.isEmpty
    · simp only [hde, if_true]
      exact runGeneral_cases st.general c
    · simp only [hde, Bool.false_eq_true, if_false]
      by_cases hs : ((d.lookup "START").getD []).isEmpty
      · simp only [hs, if_true]
        exact runGeneral_cases st.general c
      · simp only [hs, Bool.false_eq_true, if_false]
        rcases greedyRun_cases (ddTouch d "START" []) with h1 | h2
        · exact Or.inl h1
        · exact Or.inr ⟨ddTouch d "START" [], h2⟩

/-- C3: every successful query returns at most 6 items with no duplicates
(the traversal itself terminates by construction: it is a total function
with 6 units of fuel, mirroring the `for i in range(1, 7)` loop). -/
theorem C3_recommend_bounded_nodup (st : BrainState) (my_champ : String)
    (enemy_champ : Option String) (l : List String)
    (h : (recommend_build st my_champ enemy_champ).1 = some l) :
    l.length ≤ 6 ∧ l.Nodup := by
  rcases recommend_build_fst_cases st my_champ enemy_champ with h0 | ⟨tr, h1⟩
  · rw [h0] at h; exact absurd h (by simp)
  · rw [h1] at h
    simp only [Option.some.injEq] at h
    subst h
    exact ⟨greedyLoop_length_le tr 6 "START" [],
      (greedyLoop_nodup_avoid tr 6 "START" []).1⟩

/-- Witness for C3 at a concrete trained-like state. -/
theorem C3_recommend_bounded_nodup_witness :
    (["I1"] : List String).length ≤ 6 ∧ (["I1"] : List String).Nodup :=
  C3_recommend_bounded_nodup
    ⟨[], [("G", [("START", [("I1", 3)])])]⟩ "G" none ["I1"] (by decide)

/-! ### Mode selection of recommend_build -/

/-- The specific-mode test of `recommend_build`: the opponent's sub-table
exists, is truthy (non-empty), and its START row is non-empty. -/
def hasSpecificStart (st : BrainState) (c o : String) : Bool :=
  match ((st.specific.lookup c).getD []).lookup o with
  | none => false
  | some d => !d.isEmpty && !((d.lookup "START").getD []).isEmpty

theorem recommend_build_fst_general (st : BrainState) (c : String) (eo : Option String)
    (h : ∀ o, eo = some o → hasSpecificStart st c o = false) :
    (recommend_build st c eo).1 = runGeneral st.general c := by
  unfold recommend_build
  cases eo with
  | none => rfl
  | some o =>
    have ho := h o rfl
    unfold hasSpecificStart at ho
    dsimp only
    rw [Option.some_bind]
    cases hd : ((st.specific.lookup c).getD []).lookup o with
    | none => rfl
    | some d =>
      rw [hd] at ho
      dsimp only at ho
      rw [Option.map_some']
      dsimp only
      by_cases hde : d.isEmpty
      · rw [if_pos hde]
      · rw [if_neg hde]
        have hs : ((d.lookup "START").getD []).isEmpty = true := by
          rcases Bool.and_eq_false_iff.mp ho with h1 | h2
          · exact absurd (by simpa using h1) hde
          · simpa using h2
        rw [if_pos hs]

theorem recommend_build_fst_specific (st : BrainState) (c o : String) (d : TransMap)
    (hd : ((st.specific.lookup c).getD []).lookup o = some d)
    (hne : d.isEmpty = false)
    (hs : ((d.lookup "START").getD []).isEmpty = false) :
    (recommend_build st c (some o)).1 = greedyRun (ddTouch d "START" []) := by
  unfold recommend_build
  dsimp only
  rw [Option.some_bind, hd, Option.map_some']
  dsimp only
  rw [if_neg (by simp [hne]), if_neg (by simp [hs])]

/-- C4: when the specific table has no START data for the queried opponent,
the query and the opponent-free query both fall back to the general table
and return the same sequence. -/
theorem C4_general_fallback (st : BrainState) (c o : String)
    (hgen : (st.general.lookup c).isSome = true)
    (hspec : hasSpecificStart st c o = false) :
    (recommend_build st c (some o)).1 = (recommend_build st c none).1 := by
  rw [recommend_build_fst_general st c (some o)
      (fun o' ho' => by
        injection ho' with hh
        subst hh
        exact hspec),
    recommend_build_fst_general st c none (fun o' ho' => by cases ho')]

/-- Witness for C4. -/
theorem C4_general_fallback_witness :
    (recommend_build ⟨[], [("G", [("START", [("I1", 3)])])]⟩ "G" (some "D")).1 =
      (recommend_build ⟨[], [("G", [("START", [("I1", 3)])])]⟩ "G" none).1 :=
  C4_general_fallback ⟨[], [("G", [("START", [("I1", 3)])])]⟩ "G" "D"
    (by decide) (by decide)

/-! ### The query's effect on the stored tables -/

theorem lookup_some_mem {α : Type} (d : List (String × α)) (k : String) (v : α)
    (h : d.lookup k = some v) : (k, v) ∈ d := by
  induction d with
  | nil => simp [List.lookup] at h
  | cons hd tl ih =>
    obtain ⟨k0, v0⟩ := hd
    rw [lookup_cons_ite] at h
    by_cases hk : k = k0
    · rw [if_pos hk] at h
      injection h with hv
      subst hk; subst hv
      exact List.mem_cons_self _ _
    · rw [if_neg hk] at h
      exact List.mem_cons_of_mem _ (ih h)

theorem transW_ddTouch (d : TransMap) (k f t : String) :
    transW (ddTouch d k []) f t = transW d f t := by
  unfold transW
  rw [lookup_ddTouch]

theorem specW_ddTouch (s : SpecificTbl) (c : String) (c' o' f' t' : String) :
    specW (ddTouch s c []) c' o' f' t' = specW s c' o' f' t' := by
  unfold specW
  rw [lookup_ddTouch]

/-- C8 (amended): a query never changes the general table and never changes
any stored weight of the specific table; the only effect is inserting empty
default entries (the queried champion key, and a START key in the chosen
opponent sub-table), which carry weight 0. -/
theorem C8_query_preserves_weights (st : BrainState) (c : String) (eo : Option String) :
    (recommend_build st c eo).2.general = st.general ∧
    ∀ c' o' f' t', specW (recommend_build st c eo).2.specific c' o' f' t' =
      specW st.specific c' o' f' t' := by
  unfold recommend_build
  dsimp only
  cases eo with
  | none =>
    rw [Option.none_bind]
    exact ⟨rfl, fun c' o' f' t' => specW_ddTouch st.specific c c' o' f' t'⟩
  | some o =>
    rw [Option.some_bind]
    cases hd : ((st.specific.lookup c).getD []).lookup o with
    | none =>
      rw [Option.map_none']
      exact ⟨rfl, fun c' o' f' t' => specW_ddTouch st.specific c c' o' f' t'⟩
    | some d =>
      rw [Option.map_some']
      dsimp only
      by_cases hde : d.isEmpty
      · rw [if_pos hde]
        exact ⟨rfl, fun c' o' f' t' => specW_ddTouch st.specific c c' o' f' t'⟩
      · rw [if_neg hde]
        have hsome : (st.specific.lookup c).isSome := by
          cases hc : st.specific.lookup c with
          | none => rw [hc] at hd; simp [List.lookup] at hd
          | some om => simp
        have htouch : ddTouch st.specific c ([] : OppMap) = st.specific :=
          ddTouch_of_mem st.specific c [] hsome
        have hmain : ∀ c' o' f' t',
            specW (dictSet (ddTouch st.specific c []) c
              (dictSet ((st.specific.lookup c).getD [])
                o (ddTouch d "START" []))) c' o' f' t' =
              specW st.specific c' o' f' t' := by
          intro c' o' f' t'
          rw [htouch]
          unfold specW
          rw [lookup_dictSet]
          by_cases hc' : c' = c
          · subst hc'
            rw [if_pos rfl]
            simp only [Option.getD_some]
            rw [lookup_dictSet]
            by_cases ho' : o' = o
            · subst ho'
              rw [if_pos rfl, hd]
              simp only [Option.getD_some]
              exact transW_ddTouch d "START" f' t'
            · rw [if_neg ho']
          · rw [if_neg hc']
        by_cases hs : ((d.lookup "START").getD []).isEmpty
        · rw [if_pos hs]
          exact ⟨rfl, hmain⟩
        · rw [if_neg hs]
          exact ⟨rfl, hmain⟩

/-- C8 counterexample: querying an untrained champion inserts its key into
the specific table, so the key set after the query differs from the one
before it — the query is not a pure read of the tables. -/
theorem C8_counterexample :
    (recommend_build ⟨[], []⟩ "Garen" (some "Darius")).2.specific ≠
      (⟨[], []⟩ : BrainState).specific := by decide

/-! ### What the returned list holds -/

/-- All to-node keys stored in a transition map. -/
def transToKeys : TransMap → List String
  | [] => []
  | (_, opts) :: rest => opts.map Prod.fst ++ transToKeys rest

/-- All to-node keys stored in any opponent sub-table. -/
def oppToKeys : OppMap → List String
  | [] => []
  | (_, m) :: rest => transToKeys m ++ oppToKeys rest

theorem mem_insertDesc (x e : String × Weight) (l : EdgeMap)
    (h : e ∈ insertDesc x l) : e = x ∨ e ∈ l := by
  induction l with
  | nil => simpa [insertDesc] using h
  | cons y ys ih =>
    unfold insertDesc at h
    by_cases hc : y.2 ≤ x.2
    · rw [if_pos hc] at h
      rcases List.mem_cons.mp h with h1 | h2
      · exact Or.inl h1
      · exact Or.inr h2
    · rw [if_neg hc] at h
      rcases List.mem_cons.mp h with h1 | h2
      · exact Or.inr (h1 ▸ List.mem_cons_self _ _)
      · rcases ih h2 with h3 | h4
        · exact Or.inl h3
        · exact Or.inr (List.mem_cons_of_mem _ h4)

theorem mem_sortDesc (e : String × Weight) (l : EdgeMap)
    (h : e ∈ sortDesc l) : e ∈ l := by
  induction l with
  | nil => simpa [sortDesc] using h
  | cons y ys ih =>
    unfold sortDesc at h ih
    simp only [List.foldr_cons] at h
    rcases mem_insertDesc y e _ h with h1 | h2
    · exact h1 ▸ List.mem_cons_self _ _
    · exact List.mem_cons_of_mem _ (ih h2)

theorem argmaxKey_mem (opts : EdgeMap) (kv : String × Weight)
    (h : argmaxKey opts = some kv) : kv ∈ opts := by
  induction opts generalizing kv with
  | nil => simp [argmaxKey] at h
  | cons y ys ih =>
    unfold argmaxKey at h
    cases ha : argmaxKey ys with
    | none =>
      rw [ha] at h
      injection h with hv
      exact hv ▸ List.mem_cons_self _ _
    | some kv2 =>
      rw [ha] at h
      dsimp only at h
      by_cases hc : kv2.2 > y.2
      · rw [if_pos hc] at h
        injection h with hv
        exact List.mem_cons_of_mem _ (hv ▸ ih kv2 ha)
      · rw [if_neg hc] at h
        injection h with hv
        exact hv ▸ List.mem_cons_self _ _

theorem pickNext_mem (opts : EdgeMap) (visited : List String) (x : String)
    (h : pickNext opts visited = some x) : x ∈ opts.map Prod.fst := by
  unfold pickNext at h
  cases ha : argmaxKey opts with
  | none => rw [ha] at h; exact absurd h (by simp)
  | some best =>
    rw [ha] at h
    dsimp only at h
    by_cases hv : visited.contains best.1 = true
    · rw [if_pos hv] at h
      cases hf : (sortDesc opts).find? (fun kv => !visited.contains kv.1) with
      | none => rw [hf] at h; exact absurd h (by simp)
      | some kv =>
        rw [hf] at h
        injection h with hv2
        subst hv2
        exact List.mem_map_of_mem Prod.fst
          (mem_sortDesc kv opts (List.mem_of_find?_eq_some hf))
    · rw [if_neg hv] at h
      injection h with hv2
      subst hv2
      exact List.mem_map_of_mem Prod.fst (argmaxKey_mem opts best ha)

theorem mem_transToKeys_of_entry (m : TransMap) (f : String) (opts : EdgeMap)
    (hmem : (f, opts) ∈ m) (x : String) (hx : x ∈ opts.map Prod.fst) :
    x ∈ transToKeys m := by
  induction m with
  | nil => simp at hmem
  | cons y ys ih =>
    obtain ⟨f0, opts0⟩ := y
    rcases List.mem_cons.mp hmem with h1 | h2
    · injection h1 with hf ho
      subst hf; subst ho
      exact List.mem_append_left _ hx
    · exact List.mem_append_right _ (ih h2)

theorem greedyLoop_subset_toKeys (transitions : TransMap) :
    ∀ (fuel : Nat) (cur : String) (visited : List String) (x : String),
      x ∈ greedyLoop transitions fuel cur visited → x ∈ transToKeys transitions := by
  intro fuel
  induction fuel with
  | zero => intro cur visited x hx; simp [greedyLoop] at hx
  | succ n ih =>
    intro cur visited x hx
    rw [greedyLoop] at hx
    cases hl : transitions.lookup cur with
    | none => rw [hl] at hx; simp at hx
    | some opts =>
      rw [hl] at hx
      dsimp only at hx
      by_cases he : opts.isEmpty
      · rw [if_pos he] at hx; simp at hx
      · rw [if_neg he] at hx
        cases hp : pickNext opts visited with
        | none => rw [hp] at hx; simp at hx
        | some best =>
          rw [hp] at hx
          rcases List.mem_cons.mp hx with h1 | h2
          · subst h1
            exact mem_transToKeys_of_entry transitions cur opts
              (lookup_some_mem transitions cur opts hl) x (pickNext_mem opts visited x hp)
          · exact ih best (best :: visited) x h2

theorem transToKeys_append (a b : TransMap) :
    transToKeys (a ++ b) = transToKeys a ++ transToKeys b := by
  induction a with
  | nil => simp [transToKeys]
  | cons y ys ih =>
    obtain ⟨f0, opts0⟩ := y
    simp [transToKeys, ih]

theorem mem_transToKeys_ddTouch (d : TransMap) (k x : String)
    (h : x ∈ transToKeys (ddTouch d k [])) : x ∈ transToKeys d := by
  unfold ddTouch at h
  by_cases hk : (d.lookup k).isSome
  · rwa [if_pos hk] at h
  · rw [if_neg hk, transToKeys_append] at h
    rcases List.mem_append.mp h with h1 | h2
    · exact h1
    · simp [transToKeys] at h2

theorem mem_oppToKeys_of_entry (om : OppMap) (o : String) (d : TransMap)
    (hmem : (o, d) ∈ om) (x : String) (hx : x ∈ transToKeys d) :
    x ∈ oppToKeys om := by
  induction om with
  | nil => simp at hmem
  | cons y ys ih =>
    obtain ⟨o0, d0⟩ := y
    rcases List.mem_cons.mp hmem with h1 | h2
    · injection h1 with ho hd
      subst ho; subst hd
      exact List.mem_append_left _ hx
    · exact List.mem_append_right _ (ih h2)

theorem runGeneral_subset (g : GeneralTbl) (c : String) (l : List String)
    (h : runGeneral g c = some l) (x : String) (hx : x ∈ l) :
    x ∈ transToKeys ((g.lookup c).getD []) := by
  unfold runGeneral at h
  cases hl : g.lookup c with
  | none => rw [hl] at h; exact absurd h (by simp)
  | some t =>
    rw [hl] at h
    dsimp only at h
    unfold greedyRun at h
    by_cases he : t.isEmpty
    · rw [if_pos he] at h; exact absurd h (by simp)
    · rw [if_neg he] at h
      injection h with hv
      subst hv
      simpa using greedyLoop_subset_toKeys t 6 "START" [] x hx

/-- C7 (amended): `recommend_build` returns `None` (not an empty list) when
the champion has no usable data; every identifier in a returned list is a
raw to-node key taken from the champion's stored tables (not a display
name); and display names only come from `get_item_name`, which resolves
known ids to the catalog name and unknown ids to the placeholder
`"ID " ++ id`. -/
theorem C7_raw_ids_and_none :
    (∀ (st : BrainState) (c : String) (eo : Option String),
      (∀ o, eo = some o → hasSpecificStart st c o = false) →
      st.general.lookup c = none → (recommend_build st c eo).1 = none) ∧
    (∀ (st : BrainState) (c : String) (eo : Option String) (l : List String) (x : String),
      (recommend_build st c eo).1 = some l → x ∈ l →
      x ∈ transToKeys ((st.general.lookup c).getD []) ∨
        x ∈ oppToKeys ((st.specific.lookup c).getD [])) ∧
    (∀ (catalog : Catalog) (item_id : String),
      catalog.lookup item_id = none → get_item_name catalog item_id = "ID " ++ item_id) ∧
    (∀ (catalog : Catalog) (item_id : String) (info : ItemEntry),
      catalog.lookup item_id = some info → get_item_name catalog item_id = info.name) := by
  refine ⟨?_, ?_, ?_, ?_⟩
  · intro st c eo hspec hgen
    rw [recommend_build_fst_general st c eo hspec]
    unfold runGeneral
    rw [hgen]
  · intro st c eo l x hl hx
    cases eo with
    | none =>
      rw [recommend_build_fst_general st c none (fun o ho => by cases ho)] at hl
      exact Or.inl (runGeneral_subset st.general c l hl x hx)
    | some o =>
      cases hd : ((st.specific.lookup c).getD []).lookup o with
      | none =>
        rw [recommend_build_fst_general st c (some o)
          (fun o' ho' => by
            injection ho' with hh
            subst hh
            unfold hasSpecificStart
            rw [hd])] at hl
        exact Or.inl (runGeneral_subset st.general c l hl x hx)
      | some d =>
        by_cases hde : d.isEmpty
        · rw [recommend_build_fst_general st c (some o)
            (fun o' ho' => by
              injection ho' with hh
              subst hh
              unfold hasSpecificStart
              rw [hd]
              simp [hde])] at hl
          exact Or.inl (runGeneral_subset st.general c l hl x hx)
        · by_cases hs : ((d.lookup "START").getD []).isEmpty
          · rw [recommend_build_fst_general st c (some o)
              (fun o' ho' => by
                injection ho' with hh
                subst hh
                unfold hasSpecificStart
                rw [hd]
                simp [hs])] at hl
            exact Or.inl (runGeneral_subset st.general c l hl x hx)
          · rw [recommend_build_fst_specific st c o d hd
              (Bool.eq_false_iff.mpr hde) (Bool.eq_false_iff.mpr hs)] at hl
            unfold greedyRun at hl
            by_cases he : (ddTouch d "START" ([] : EdgeMap)).isEmpty
            · rw [if_pos he] at hl; exact absurd hl (by simp)
            · rw [if_neg he] at hl
              injection hl with hv
              subst hv
              refine Or.inr (mem_oppToKeys_of_entry _ o d
                (lookup_some_mem _ o d hd) x ?_)
              exact mem_transToKeys_ddTouch d "START" x
                (greedyLoop_subset_toKeys _ 6 "START" [] x hx)
  · intro catalog item_id h
    unfold get_item_name
    rw [h]
  · intro catalog item_id info h
    unfold get_item_name
    rw [h]

/-- Witness for C7 (amended), applying the no-data clause at a concrete
empty state. -/
theorem C7_raw_ids_and_none_witness :
    (recommend_build ⟨[], []⟩ "X" (some "Y")).1 = none :=
  C7_raw_ids_and_none.1 ⟨[], []⟩ "X" (some "Y") (fun o _ => rfl) rfl

/-- C7 counterexample: the returned list holds raw item identifiers, not
display names (here the id "3031", not the catalog name), and a query with
no data returns `None` (the bare `return`), not an empty list. -/
theorem C7_counterexample :
    (recommend_build ⟨[], [("Garen", [("START", [("3031", 3)])])]⟩ "Garen"
        (some "Darius")).1 = some ["3031"] ∧
    get_item_name [("3031", ⟨"Infinity Edge", [], none, 3450⟩)] "3031" = "Infinity Edge" ∧
    "3031" ≠ "Infinity Edge" ∧
    (recommend_build ⟨[], []⟩ "NoData" (some "X")).1 = none ∧
    (recommend_build ⟨[], []⟩ "NoData" (some "X")).1 ≠ some [] := by decide

/-! ### Participants without a direct opponent -/

/-- C5 counterexample: a lone valid-lane participant with no opposing
same-lane participant is NOT skipped — their winning purchase of a final
item adds weight 3 to the general table and, under the sentinel opponent
key "Unknown", to the specific table. -/
theorem C5_counterexample :
    genW (trainAll [("F", ⟨"Item F", [], none, 1800⟩)]
        [⟨[⟨"Garen", 100, "TOP", true, [⟨"ITEM_PURCHASED", 0, "F"⟩]⟩]⟩]).general
      "Garen" "START" "F" = 3 ∧
    specW (trainAll [("F", ⟨"Item F", [], none, 1800⟩)]
        [⟨[⟨"Garen", 100, "TOP", true, [⟨"ITEM_PURCHASED", 0, "F"⟩]⟩]⟩]).specific
      "Garen" "Unknown" "START" "F" = 3 ∧
    (3 : Weight) ≠ 0 := by
  refine ⟨?_, ?_, by norm_num⟩
  · rw [trainAll_genW]
    rw [show transitionCount [("F", ⟨"Item F", [], none, 1800⟩)]
        [⟨[⟨"Garen", 100, "TOP", true, [⟨"ITEM_PURCHASED", 0, "F"⟩]⟩]⟩]
        "Garen" "START" "F" true = 1 from by decide]
    rw [show transitionCount [("F", ⟨"Item F", [], none, 1800⟩)]
        [⟨[⟨"Garen", 100, "TOP", true, [⟨"ITEM_PURCHASED", 0, "F"⟩]⟩]⟩]
        "Garen" "START" "F" false = 0 from by decide]
    norm_num
  · rw [trainAll_specW]
    rw [show transitionCountVs [("F", ⟨"Item F", [], none, 1800⟩)]
        [⟨[⟨"Garen", 100, "TOP", true, [⟨"ITEM_PURCHASED", 0, "F"⟩]⟩]⟩]
        "Garen" "Unknown" "START" "F" true = 1 from by decide]
    rw [show transitionCountVs [("F", ⟨"Item F", [], none, 1800⟩)]
        [⟨[⟨"Garen", 100, "TOP", true, [⟨"ITEM_PURCHASED", 0, "F"⟩]⟩]⟩]
        "Garen" "Unknown" "START" "F" false = 0 from by decide]
    norm_num

/-- C5 (amended): a valid-lane participant with no direct opponent is
trained like any other; their transitions go to the general table under
their champion and to the specific table under the opponent key
"Unknown". -/
theorem C5_opponentless_trained_as_Unknown (catalog : Catalog)
    (parts : List Participant) (st : BrainState) (p : Participant) (f t : String)
    (hl : VALID_LANES.contains p.lane = true)
    (hno : findOpponent parts p.teamId p.lane = none) :
    genW (trainParticipant catalog parts st p).general p.championName f t =
      genW st.general p.championName f t +
        participantWeight p * (pairCount f t (seqPairs (build_sequence catalog p)) : Weight) ∧
    specW (trainParticipant catalog parts st p).specific p.championName "Unknown" f t =
      specW st.specific p.championName "Unknown" f t +
        participantWeight p * (pairCount f t (seqPairs (build_sequence catalog p)) : Weight) := by
  have hen : enemyName parts p = "Unknown" := by
    unfold enemyName
    rw [hno]
  constructor
  · rw [genW_trainParticipant]
    unfold gContrib
    rw [if_pos ⟨hl, rfl⟩]
  · rw [specW_trainParticipant]
    unfold sContrib
    rw [if_pos ⟨hl, rfl, hen.symm⟩]

/-- Witness for C5 (amended). -/
theorem C5_opponentless_trained_as_Unknown_witness :
    genW (trainParticipant [("F", ⟨"Item F", [], none, 1800⟩)]
        [⟨"Garen", 100, "TOP", true, [⟨"ITEM_PURCHASED", 0, "F"⟩]⟩] ⟨[], []⟩
        ⟨"Garen", 100, "TOP", true, [⟨"ITEM_PURCHASED", 0, "F"⟩]⟩).general
      "Garen" "START" "F" =
      genW ([] : GeneralTbl) "Garen" "START" "F" +
        participantWeight ⟨"Garen", 100, "TOP", true, [⟨"ITEM_PURCHASED", 0, "F"⟩]⟩ *
          (pairCount "START" "F" (seqPairs (build_sequence
            [("F", ⟨"Item F", [], none, 1800⟩)]
            ⟨"Garen", 100, "TOP", true, [⟨"ITEM_PURCHASED", 0, "F"⟩]⟩)) : Weight) ∧
    specW (trainParticipant [("F", ⟨"Item F", [], none, 1800⟩)]
        [⟨"Garen", 100, "TOP", true, [⟨"ITEM_PURCHASED", 0, "F"⟩]⟩] ⟨[], []⟩
        ⟨"Garen", 100, "TOP", true, [⟨"ITEM_PURCHASED", 0, "F"⟩]⟩).specific
      "Garen" "Unknown" "START" "F" =
      specW ([] : SpecificTbl) "Garen" "Unknown" "START" "F" +
        participantWeight ⟨"Garen", 100, "TOP", true, [⟨"ITEM_PURCHASED", 0, "F"⟩]⟩ *
          (pairCount "START" "F" (seqPairs (build_sequence
            [("F", ⟨"Item F", [], none, 1800⟩)]
            ⟨"Garen", 100, "TOP", true, [⟨"ITEM_PURCHASED", 0, "F"⟩]⟩)) : Weight) :=
  C5_opponentless_trained_as_Unknown [("F", ⟨"Item F", [], none, 1800⟩)]
    [⟨"Garen", 100, "TOP", true, [⟨"ITEM_PURCHASED", 0, "F"⟩]⟩] ⟨[], []⟩
    ⟨"Garen", 100, "TOP", true, [⟨"ITEM_PURCHASED", 0, "F"⟩]⟩ "START" "F"
    (by decide) (by decide)

/-! ### Event types are never inspected -/

/-- C6 counterexample: an ITEM_SOLD event on a final item adds edge weight
exactly like a purchase — the trainer never reads the event type. -/
theorem C6_counterexample :
    genW (trainAll [("F", ⟨"Item F", [], none, 1800⟩)]
        [⟨[⟨"Garen", 100, "TOP", true, [⟨"ITEM_SOLD", 0, "F"⟩]⟩,
           ⟨"Darius", 200, "TOP", false, []⟩]⟩]).general "Garen" "START" "F" = 3 ∧
    (3 : Weight) ≠ 0 := by
  refine ⟨?_, by norm_num⟩
  rw [trainAll_genW]
  rw [show transitionCount [("F", ⟨"Item F", [], none, 1800⟩)]
      [⟨[⟨"Garen", 100, "TOP", true, [⟨"ITEM_SOLD", 0, "F"⟩]⟩,
         ⟨"Darius", 200, "TOP", false, []⟩]⟩] "Garen" "START" "F" true = 1 from by decide]
  rw [show transitionCount [("F", ⟨"Item F", [], none, 1800⟩)]
      [⟨[⟨"Garen", 100, "TOP", true, [⟨"ITEM_SOLD", 0, "F"⟩]⟩,
         ⟨"Darius", 200, "TOP", false, []⟩]⟩] "Garen" "START" "F" false = 0 from by decide]
  norm_num

theorem scanPurchases_itemIds (catalog : Catalog) :
    ∀ (evs evs2 : List PurchaseEvent) (processed : List String),
      evs.map PurchaseEvent.itemId = evs2.map PurchaseEvent.itemId →
      scanPurchases catalog evs processed = scanPurchases catalog evs2 processed := by
  intro evs
  induction evs with
  | nil =>
    intro evs2 processed hmap
    cases evs2 with
    | nil => rfl
    | cons a b => simp at hmap
  | cons e rest ih =>
    intro evs2 processed hmap
    cases evs2 with
    | nil => simp at hmap
    | cons e2 rest2 =>
      simp only [List.map_cons, List.cons.injEq] at hmap
      obtain ⟨h1, h2⟩ := hmap
      simp only [scanPurchases, h1]
      by_cases hf : is_final_item e2.itemId catalog
      · by_cases hp : processed.contains e2.itemId
        · simp only [hf, hp, Bool.not_true, Bool.false_eq_true, if_false, if_true]
          exact ih rest2 processed h2
        · simp only [hf, hp, Bool.not_true, Bool.false_eq_true, if_false]
          rw [ih rest2 (e2.itemId :: processed) h2]
      · simp only [hf, Bool.not_false, if_true]
        exact ih rest2 processed h2

/-- C6 (amended): the trainer never inspects eventType — the build sequence
(and with it, by the accumulation theorem, every trained edge weight)
depends only on the itemId sequence of `item_purchases`; any event whose
itemId is a fresh final item extends the sequence whatever its type. -/
theorem C6_eventType_ignored (catalog : Catalog) (p : Participant)
    (evs2 : List PurchaseEvent)
    (h : evs2.map PurchaseEvent.itemId = p.item_purchases.map PurchaseEvent.itemId) :
    build_sequence catalog { p with item_purchases := evs2 } = build_sequence catalog p := by
  unfold build_sequence
  simp only [List.cons.injEq, true_and]
  exact scanPurchases_itemIds catalog evs2 p.item_purchases [] h

/-- Witness for C6 (amended): replacing a PURCHASED event by a SOLD event
with the same item id leaves the build sequence unchanged. -/
theorem C6_eventType_ignored_witness :
    build_sequence [("F", ⟨"Item F", [], none, 1800⟩)]
        ⟨"Garen", 100, "TOP", true, [⟨"ITEM_SOLD", 7, "F"⟩]⟩ =
      build_sequence [("F", ⟨"Item F", [], none, 1800⟩)]
        ⟨"Garen", 100, "TOP", true, [⟨"ITEM_PURCHASED", 0, "F"⟩]⟩ :=
  C6_eventType_ignored [("F", ⟨"Item F", [], none, 1800⟩)]
    ⟨"Garen", 100, "TOP", true, [⟨"ITEM_PURCHASED", 0, "F"⟩]⟩
    [⟨"ITEM_SOLD", 7, "F"⟩] (by decide)

/-! ### Snapshot loading -/

/-- C9 counterexample: a snapshot that parses to an object holding
"specific" but no "general" makes load_brain return False, yet the
in-memory specific table has already been overwritten — the failure does
not leave the tables as they were. -/
theorem C9_counterexample :
    (load_brain (some (some (JValue.obj [("specific", JValue.str "corrupt")])))
        ⟨JValue.obj [], JValue.obj []⟩).1 = false ∧
    (load_brain (some (some (JValue.obj [("specific", JValue.str "corrupt")])))
        ⟨JValue.obj [], JValue.obj []⟩).2.specific_memory ≠ JValue.obj [] := by
  refine ⟨rfl, ?_⟩
  intro h
  exact JValue.noConfusion h

/-- C9 (amended): load_brain returns False (never raising) whenever the
file is absent, unreadable, or the parsed value lacks "specific" or
"general"; the tables are untouched in the first three cases, but when the
snapshot holds "specific" and lacks "general" the specific table is
overwritten before the failure is detected (the general table is never
touched on failure). -/
theorem C9_load_brain_fail_closed :
    (∀ st, load_brain none st = (false, st)) ∧
    (∀ st, load_brain (some none) st = (false, st)) ∧
    (∀ j st, jGet j "specific" = none → load_brain (some (some j)) st = (false, st)) ∧
    (∀ j st sp, jGet j "specific" = some sp → jGet j "general" = none →
      load_brain (some (some j)) st = (false, { st with specific_memory := sp })) ∧
    (∀ j st sp g, jGet j "specific" = some sp → jGet j "general" = some g →
      load_brain (some (some j)) st = (true, ⟨sp, g⟩)) := by
  refine ⟨fun st => rfl, fun st => rfl, ?_, ?_, ?_⟩
  · intro j st h
    unfold load_brain
    dsimp only
    rw [h]
  · intro j st sp h1 h2
    unfold load_brain
    dsimp only
    rw [h1, h2]
  · intro j st sp g h1 h2
    unfold load_brain
    dsimp only
    rw [h1, h2]

/-- Witness for C9 (amended): the partial-snapshot clause at a concrete
input. -/
theorem C9_load_brain_fail_closed_witness :
    load_brain (some (some (JValue.obj [("specific", JValue.null)])))
        ⟨JValue.obj [], JValue.null⟩ =
      (false, ⟨JValue.null, JValue.null⟩) :=
  C9_load_brain_fail_closed.2.2.2.1 (JValue.obj [("specific", JValue.null)])
    ⟨JValue.obj [], JValue.null⟩ JValue.null rfl rfl

/-! ### Every trained node is a final item -/

/-- All nodes of a transition map: from-node keys and to-node keys. -/
def transNodes : TransMap → List String
  | [] => []
  | (f, opts) :: rest => f :: (opts.map Prod.fst ++ transNodes rest)

/-- All nodes of the general table (champion keys are not nodes). -/
def genNodes : GeneralTbl → List String
  | [] => []
  | (_, m) :: rest => transNodes m ++ genNodes rest

/-- All nodes of one champion's opponent map (opponent keys are not nodes). -/
def oppNodes : OppMap → List String
  | [] => []
  | (_, m) :: rest => transNodes m ++ oppNodes rest

/-- All nodes of the specific table. -/
def specNodes : SpecificTbl → List String
  | [] => []
  | (_, om) :: rest => oppNodes om ++ specNodes rest

theorem mem_transNodes_here (f0 : String) (opts0 : EdgeMap) (ys : TransMap) (x : String)
    (h : x = f0 ∨ x ∈ opts0.map Prod.fst ∨ x ∈ transNodes ys) :
    x ∈ transNodes ((f0, opts0) :: ys) := by
  simp only [transNodes, List.mem_cons, List.mem_append]
  tauto

theorem mem_genNodes_here (c0 : String) (m0 : TransMap) (ys : GeneralTbl) (x : String)
    (h : x ∈ transNodes m0 ∨ x ∈ genNodes ys) : x ∈ genNodes ((c0, m0) :: ys) := by
  simp only [genNodes, List.mem_append]
  exact h

theorem mem_oppNodes_here (o0 : String) (m0 : TransMap) (ys : OppMap) (x : String)
    (h : x ∈ transNodes m0 ∨ x ∈ oppNodes ys) : x ∈ oppNodes ((o0, m0) :: ys) := by
  simp only [oppNodes, List.mem_append]
  exact h

theorem mem_specNodes_here (c0 : String) (om0 : OppMap) (ys : SpecificTbl) (x : String)
    (h : x ∈ oppNodes om0 ∨ x ∈ specNodes ys) : x ∈ specNodes ((c0, om0) :: ys) := by
  simp only [specNodes, List.mem_append]
  exact h

theorem mem_map_fst_dictSet (em : EdgeMap) (t : String) (w : Weight) (x : String)
    (h : x ∈ (dictSet em t w).map Prod.fst) : x ∈ em.map Prod.fst ∨ x = t := by
  induction em with
  | nil => exact Or.inr (by simpa [dictSet] using h)
  | cons y ys ih =>
    obtain ⟨t0, w0⟩ := y
    unfold dictSet at h
    by_cases hk : t0 = t
    · rw [if_pos hk] at h
      rcases (by simpa using h : x = t ∨ x ∈ ys.map Prod.fst) with h1 | h2
      · exact Or.inr h1
      · exact Or.inl (by simp only [List.map_cons, List.mem_cons]; exact Or.inr h2)
    · rw [if_neg hk] at h
      rcases (by simpa using h : x = t0 ∨ x ∈ (dictSet ys t w).map Prod.fst) with h1 | h2
      · exact Or.inl (by simp only [List.map_cons, List.mem_cons]; exact Or.inl h1)
      · rcases ih h2 with h3 | h4
        · exact Or.inl (by simp only [List.map_cons, List.mem_cons]; exact Or.inr h3)
        · exact Or.inr h4

theorem mem_transNodes_dictSet (m : TransMap) (f : String) (opts : EdgeMap) (x : String)
    (h : x ∈ transNodes (dictSet m f opts)) :
    x ∈ transNodes m ∨ x = f ∨ x ∈ opts.map Prod.fst := by
  induction m with
  | nil =>
    simp only [dictSet, transNodes, List.append_nil, List.mem_cons] at h
    rcases h with h1 | h2
    · exact Or.inr (Or.inl h1)
    · exact Or.inr (Or.inr h2)
  | cons y ys ih =>
    obtain ⟨f0, opts0⟩ := y
    unfold dictSet at h
    by_cases hk : f0 = f
    · rw [if_pos hk] at h
      subst hk
      simp only [transNodes, List.mem_cons, List.mem_append] at h
      rcases h with h1 | h2 | h3
      · exact Or.inr (Or.inl h1)
      · exact Or.inr (Or.inr h2)
      · exact Or.inl (mem_transNodes_here _ _ _ _ (Or.inr (Or.inr h3)))
    · rw [if_neg hk] at h
      simp only [transNodes, List.mem_cons, List.mem_append] at h
      rcases h with h1 | h2 | h3
      · exact Or.inl (mem_transNodes_here _ _ _ _ (Or.inl h1))
      · exact Or.inl (mem_transNodes_here _ _ _ _ (Or.inr (Or.inl h2)))
      · rcases ih h3 with h5 | h6
        · exact Or.inl (mem_transNodes_here _ _ _ _ (Or.inr (Or.inr h5)))
        · exact Or.inr h6

theorem mem_transNodes_of_lookup (m : TransMap) (f : String) (fm : EdgeMap)
    (hl : m.lookup f = some fm) (x : String) (hx : x ∈ fm.map Prod.fst) :
    x ∈ transNodes m := by
  induction m with
  | nil => simp [List.lookup] at hl
  | cons y ys ih =>
    obtain ⟨f0, opts0⟩ := y
    rw [lookup_cons_ite] at hl
    by_cases hk : f = f0
    · rw [if_pos hk] at hl
      injection hl with hv
      subst hv
      exact mem_transNodes_here _ _ _ _ (Or.inr (Or.inl hx))
    · rw [if_neg hk] at hl
      exact mem_transNodes_here _ _ _ _ (Or.inr (Or.inr (ih hl)))

theorem mem_transNodes_updTrans (m : TransMap) (f t : String) (w : Weight) (x : String)
    (h : x ∈ transNodes (updTrans m f t w)) :
    x ∈ transNodes m ∨ x = f ∨ x = t := by
  unfold updTrans at h
  rcases mem_transNodes_dictSet m f _ x h with h1 | h2 | h3
  · exact Or.inl h1
  · exact Or.inr (Or.inl h2)
  · rcases mem_map_fst_dictSet _ t _ x h3 with h4 | h5
    · cases hl : m.lookup f with
      | none => rw [hl] at h4; simp at h4
      | some fm =>
        rw [hl] at h4
        exact Or.inl (mem_transNodes_of_lookup m f fm hl x (by simpa using h4))
    · exact Or.inr (Or.inr h5)

theorem mem_genNodes_dictSet (g : GeneralTbl) (c : String) (m : TransMap) (x : String)
    (h : x ∈ genNodes (dictSet g c m)) : x ∈ genNodes g ∨ x ∈ transNodes m := by
  induction g with
  | nil => exact Or.inr (by simpa [dictSet, genNodes] using h)
  | cons y ys ih =>
    obtain ⟨c0, m0⟩ := y
    unfold dictSet at h
    by_cases hk : c0 = c
    · rw [if_pos hk] at h
      simp only [genNodes, List.mem_append] at h
      rcases h with h1 | h2
      · exact Or.inr h1
      · exact Or.inl (mem_genNodes_here _ _ _ _ (Or.inr h2))
    · rw [if_neg hk] at h
      simp only [genNodes, List.mem_append] at h
      rcases h with h1 | h2
      · exact Or.inl (mem_genNodes_here _ _ _ _ (Or.inl h1))
      · rcases ih h2 with h3 | h4
        · exact Or.inl (mem_genNodes_here _ _ _ _ (Or.inr h3))
        · exact Or.inr h4

theorem mem_genNodes_of_lookup (g : GeneralTbl) (c : String) (m : TransMap)
    (hl : g.lookup c = some m) (x : String) (hx : x ∈ transNodes m) :
    x ∈ genNodes g := by
  induction g with
  | nil => simp [List.lookup] at hl
  | cons y ys ih =>
    obtain ⟨c0, m0⟩ := y
    rw [lookup_cons_ite] at hl
    by_cases hk : c = c0
    · rw [if_pos hk] at hl
      injection hl with hv
      subst hv
      exact mem_genNodes_here _ _ _ _ (Or.inl hx)
    · rw [if_neg hk] at hl
      exact mem_genNodes_here _ _ _ _ (Or.inr (ih hl))

theorem mem_genNodes_updGeneral (g : GeneralTbl) (c f t : String) (w : Weight) (x : String)
    (h : x ∈ genNodes (updGeneral g c f t w)) :
    x ∈ genNodes g ∨ x = f ∨ x = t := by
  unfold updGeneral at h
  rcases mem_genNodes_dictSet g c _ x h with h1 | h2
  · exact Or.inl h1
  · rcases mem_transNodes_updTrans _ f t w x h2 with h3 | h4
    · cases hl : g.lookup c with
      | none => rw [hl] at h3; simp [transNodes] at h3
      | some m0 =>
        rw [hl] at h3
        exact Or.inl (mem_genNodes_of_lookup g c m0 hl x (by simpa using h3))
    · exact Or.inr h4

theorem mem_oppNodes_dictSet (om : OppMap) (o : String) (m : TransMap) (x : String)
    (h : x ∈ oppNodes (dictSet om o m)) : x ∈ oppNodes om ∨ x ∈ transNodes m := by
  induction om with
  | nil => exact Or.inr (by simpa [dictSet, oppNodes] using h)
  | cons y ys ih =>
    obtain ⟨o0, m0⟩ := y
    unfold dictSet at h
    by_cases hk : o0 = o
    · rw [if_pos hk] at h
      simp only [oppNodes, List.mem_append] at h
      rcases h with h1 | h2
      · exact Or.inr h1
      · exact Or.inl (mem_oppNodes_here _ _ _ _ (Or.inr h2))
    · rw [if_neg hk] at h
      simp only [oppNodes, List.mem_append] at h
      rcases h with h1 | h2
      · exact Or.inl (mem_oppNodes_here _ _ _ _ (Or.inl h1))
      · rcases ih h2 with h3 | h4
        · exact Or.inl (mem_oppNodes_here _ _ _ _ (Or.inr h3))
        · exact Or.inr h4

theorem mem_oppNodes_of_lookup (om : OppMap) (o : String) (m : TransMap)
    (hl : om.lookup o = some m) (x : String) (hx : x ∈ transNodes m) :
    x ∈ oppNodes om := by
  induction om with
  | nil => simp [List.lookup] at hl
  | cons y ys ih =>
    obtain ⟨o0, m0⟩ := y
    rw [lookup_cons_ite] at hl
    by_cases hk : o = o0
    · rw [if_pos hk] at hl
      injection hl with hv
      subst hv
      exact mem_oppNodes_here _ _ _ _ (Or.inl hx)
    · rw [if_neg hk] at hl
      exact mem_oppNodes_here _ _ _ _ (Or.inr (ih hl))

theorem mem_specNodes_dictSet (s : SpecificTbl) (c : String) (om : OppMap) (x : String)
    (h : x ∈ specNodes (dictSet s c om)) : x ∈ specNodes s ∨ x ∈ oppNodes om := by
  induction s with
  | nil => exact Or.inr (by simpa [dictSet, specNodes] using h)
  | cons y ys ih =>
    obtain ⟨c0, om0⟩ := y
    unfold dictSet at h
    by_cases hk : c0 = c
    · rw [if_pos hk] at h
      simp only [specNodes, List.mem_append] at h
      rcases h with h1 | h2
      · exact Or.inr h1
      · exact Or.inl (mem_specNodes_here _ _ _ _ (Or.inr h2))
    · rw [if_neg hk] at h
      simp only [specNodes, List.mem_append] at h
      rcases h with h1 | h2
      · exact Or.inl (mem_specNodes_here _ _ _ _ (Or.inl h1))
      · rcases ih h2 with h3 | h4
        · exact Or.inl (mem_specNodes_here _ _ _ _ (Or.inr h3))
        · exact Or.inr h4

theorem mem_specNodes_of_lookup (s : SpecificTbl) (c : String) (om : OppMap)
    (hl : s.lookup c = some om) (x : String) (hx : x ∈ oppNodes om) :
    x ∈ specNodes s := by
  induction s with
  | nil => simp [List.lookup] at hl
  | cons y ys ih =>
    obtain ⟨c0, om0⟩ := y
    rw [lookup_cons_ite] at hl
    by_cases hk : c = c0
    · rw [if_pos hk] at hl
      injection hl with hv
      subst hv
      exact mem_specNodes_here _ _ _ _ (Or.inl hx)
    · rw [if_neg hk] at hl
      exact mem_specNodes_here _ _ _ _ (Or.inr (ih hl))

theorem mem_specNodes_updSpecific (s : SpecificTbl) (c o f t : String) (w : Weight)
    (x : String) (h : x ∈ specNodes (updSpecific s c o f t w)) :
    x ∈ specNodes s ∨ x = f ∨ x = t := by
  unfold updSpecific at h
  rcases mem_specNodes_dictSet s c _ x h with h1 | h2
  · exact Or.inl h1
  · rcases mem_oppNodes_dictSet _ o _ x h2 with h3 | h4
    · cases hl : s.lookup c with
      | none => rw [hl] at h3; simp [oppNodes] at h3
      | some om0 =>
        rw [hl] at h3
        exact Or.inl (mem_specNodes_of_lookup s c om0 hl x (by simpa using h3))
    · rcases mem_transNodes_updTrans _ f t w x h4 with h5 | h6
      · cases hl2 : ((s.lookup c).getD []).lookup o with
        | none => rw [hl2] at h5; simp [transNodes] at h5
        | some m0 =>
          rw [hl2] at h5
          simp only [Option.getD_some] at h5
          have hom : x ∈ oppNodes ((s.lookup c).getD []) :=
            mem_oppNodes_of_lookup _ o m0 hl2 x h5
          cases hl : s.lookup c with
          | none => rw [hl] at hom; simp [oppNodes] at hom
          | some om0 =>
            rw [hl] at hom
            exact Or.inl (mem_specNodes_of_lookup s c om0 hl x (by simpa using hom))
      · exact Or.inr h6

/-- A node allowed in the trained tables: the START sentinel or a final
item of the catalog. -/
def GoodNode (catalog : Catalog) (x : String) : Prop :=
  x = "START" ∨ is_final_item x catalog = true

/-- Both tables hold only allowed nodes. -/
def GoodState (catalog : Catalog) (st : BrainState) : Prop :=
  (∀ x ∈ genNodes st.general, GoodNode catalog x) ∧
  (∀ x ∈ specNodes st.specific, GoodNode catalog x)

theorem scanPurchases_final (catalog : Catalog) :
    ∀ (evs : List PurchaseEvent) (processed : List String) (x : String),
      x ∈ scanPurchases catalog evs processed → is_final_item x catalog = true := by
  intro evs
  induction evs with
  | nil => intro processed x hx; simp [scanPurchases] at hx
  | cons e rest ih =>
    intro processed x hx
    by_cases hf : is_final_item e.itemId catalog
    · by_cases hp : processed.contains e.itemId
      · simp only [scanPurchases, hf, hp, Bool.not_true, Bool.false_eq_true, if_false,
          if_true] at hx
        exact ih processed x hx
      · simp only [scanPurchases, hf, hp, Bool.not_true, Bool.false_eq_true, if_false,
          List.mem_cons] at hx
        rcases hx with h1 | h2
        · exact h1 ▸ hf
        · exact ih _ x h2
    · simp only [scanPurchases, hf, Bool.not_false, if_true] at hx
      exact ih processed x hx

theorem seqPairs_good (catalog : Catalog) (p : Participant) (f t : String)
    (h : (f, t) ∈ seqPairs (build_sequence catalog p)) :
    GoodNode catalog f ∧ GoodNode catalog t := by
  unfold seqPairs build_sequence at h
  simp only [List.tail_cons] at h
  obtain ⟨hf, ht⟩ := List.of_mem_zip h
  constructor
  · rcases List.mem_cons.mp hf with h3 | h4
    · exact Or.inl h3
    · exact Or.inr (scanPurchases_final catalog _ _ f h4)
  · exact Or.inr (scanPurchases_final catalog _ _ t ht)

theorem trainPairs_good (catalog : Catalog) (champ enemy : String) (w : Weight) :
    ∀ (ps : List (String × String)) (st : BrainState),
      (∀ pr ∈ ps, GoodNode catalog pr.1 ∧ GoodNode catalog pr.2) →
      GoodState catalog st → GoodState catalog (trainPairs champ enemy w st ps) := by
  intro ps
  induction ps with
  | nil => intro st _ hst; simpa [trainPairs] using hst
  | cons pr rest ih =>
    intro st hps hst
    obtain ⟨f, t⟩ := pr
    rw [trainPairs]
    apply ih
    · intro pr2 hpr2
      exact hps pr2 (List.mem_cons_of_mem _ hpr2)
    · obtain ⟨hgen, hspec⟩ := hst
      have hft := hps (f, t) (List.mem_cons_self _ _)
      constructor
      · intro x hx
        rcases mem_genNodes_updGeneral st.general champ f t w x hx with h1 | h2 | h3
        · exact hgen x h1
        · exact h2 ▸ hft.1
        · exact h3 ▸ hft.2
      · intro x hx
        rcases mem_specNodes_updSpecific st.specific champ enemy f t w x hx with h1 | h2 | h3
        · exact hspec x h1
        · exact h2 ▸ hft.1
        · exact h3 ▸ hft.2

theorem trainParticipant_good (catalog : Catalog) (parts : List Participant)
    (st : BrainState) (p : Participant) (hst : GoodState catalog st) :
    GoodState catalog (trainParticipant catalog parts st p) := by
  unfold trainParticipant
  by_cases hl : VALID_LANES.contains p.lane = true
  · rw [if_pos hl]
    apply trainPairs_good
    · intro pr hpr
      obtain ⟨f, t⟩ := pr
      exact seqPairs_good catalog p f t hpr
    · exact hst
  · rw [if_neg hl]
    exact hst

theorem foldParticipants_good (catalog : Catalog) (parts : List Participant) :
    ∀ (l : List Participant) (st : BrainState), GoodState catalog st →
      GoodState catalog (l.foldl (trainParticipant catalog parts) st) := by
  intro l
  induction l with
  | nil => intro st h; simpa using h
  | cons p rest ih =>
    intro st h
    simp only [List.foldl_cons]
    exact ih _ (trainParticipant_good catalog parts st p h)

theorem trainCorpus_good (catalog : Catalog) :
    ∀ (corpus : List MatchRec) (st : BrainState), GoodState catalog st →
      GoodState catalog (trainCorpus catalog st corpus) := by
  intro corpus
  induction corpus with
  | nil => intro st h; simpa [trainCorpus] using h
  | cons m rest ih =>
    intro st h
    simp only [trainCorpus, List.foldl_cons] at ih ⊢
    exact ih _ (foldParticipants_good catalog m.participants m.participants st h)

/-- C10: every node other than START stored in either trained table (as a
from-node or to-node key, in the general table or any opponent sub-table)
is a final item present in the catalog; non-final or unknown items can
therefore never be recommended. -/
theorem C10_trained_nodes_final (catalog : Catalog) (corpus : List MatchRec) (x : String)
    (hx : x ∈ genNodes (trainAll catalog corpus).general ∨
      x ∈ specNodes (trainAll catalog corpus).specific)
    (hne : x ≠ "START") : is_final_item x catalog = true := by
  have hempty : GoodState catalog ⟨[], []⟩ := by
    constructor
    · intro y hy; simp [genNodes] at hy
    · intro y hy; simp [specNodes] at hy
  have hgood : GoodState catalog (trainAll catalog corpus) :=
    trainCorpus_good catalog corpus ⟨[], []⟩ hempty
  rcases hx with h | h
  · rcases hgood.1 x h with h1 | h2
    · exact absurd h1 hne
    · exact h2
  · rcases hgood.2 x h with h1 | h2
    · exact absurd h1 hne
    · exact h2

/-- Witness for C10 at a concrete one-match corpus. -/
theorem C10_trained_nodes_final_witness :
    is_final_item "F" [("F", ⟨"Item F", [], none, 1800⟩)] = true :=
  C10_trained_nodes_final [("F", ⟨"Item F", [], none, 1800⟩)]
    [⟨[⟨"Garen", 100, "TOP", true, [⟨"ITEM_PURCHASED", 0, "F"⟩]⟩]⟩] "F"
    (Or.inl (by decide)) (by decide)

end Marko
